import Mathlib

/-!
Verification development for the build-analyzer repository.

The definitions below are a shallow embedding of the data-transformation
core of the repository: the webpack stats normalizer
(`normalizeWebpackStats` and its helpers `approximateGzipSize`,
`getTypeFromName`, the validation step of `loadWebpackStats`, and the
development mock `mockWebpackStats`), the filter and search predicate
shared by the graph and treemap views (`filteredModules`), and the
path-segmented hierarchy construction performed by the treemap view
(trie insertion over slash-separated paths followed by the d3
`hierarchy().sum().sort()` pipeline, embedded as `insertGo`, `sumTree`
and `sortTree`).

Modelling conventions:
  - JavaScript strings are Lean `String`s; the handful of string
    operations the code uses (`split`, `toLowerCase`, `includes`,
    `endsWith`) are re-implemented over `List Char` so that they are
    kernel-computable (`jsSplit`, `jsToLower`, `containsSub`,
    `endsWithL`).  They agree with the JavaScript operations on the
    inputs of interest.
  - Byte sizes are `Nat` (the spec declares sizes to be non-negative
    integers).  `Math.floor(rawSize * 0.3)` equals `rawSize * 3 / 10`
    in natural-number arithmetic for all realistic byte counts, so
    `approximateGzipSize` is embedded with exact arithmetic.
  - Raw module and chunk identifiers are modelled after the
    `String(m.id)` coercion the code performs, i.e. directly as strings.
  - Optional collections of the raw stats object are `Option (List _)`;
    an absent collection is `none`, a present-but-empty one is
    `some []`, matching the truthiness tests of the code (an empty
    array is truthy in JavaScript).
  - `Date.now()` (the `timestamp` field) is modelled as the constant 0;
    no claim mentions it.
  - The d3 simulation fields (`x`, `y`, `vx`, `vy`, `fx`, `fy`) and
    `buildTime`, all initialised to `undefined` and never read by the
    transformation core, are omitted from the normalized module record.
-/

/-! ## Raw webpack stats model (src/data/types.ts) -/

structure WebpackReason where
  moduleIdentifier : String
  rtype : String
deriving DecidableEq, Repr

structure WebpackModule where
  id : String
  name : String
  size : Nat
  reasons : Option (List WebpackReason)
  chunks : Option (List String)
deriving DecidableEq, Repr

structure WebpackAsset where
  name : String
  size : Nat
  chunks : Option (List String)
deriving DecidableEq, Repr

structure WebpackChunk where
  id : String
  names : List String
  size : Nat
  modules : Option (List WebpackModule)
deriving DecidableEq, Repr

structure WebpackStats where
  time : Option Nat
  assets : Option (List WebpackAsset)
  modules : Option (List WebpackModule)
  chunks : Option (List WebpackChunk)
deriving DecidableEq, Repr

/-! ## Normalized model (src/data/types.ts) -/

structure NSize where
  raw : Nat
  gzip : Option Nat
deriving DecidableEq, Repr

structure NormalizedModule where
  id : String
  name : String
  path : String
  size : NSize
  type : String
  dependencies : List String
  dependents : List String
deriving DecidableEq, Repr

structure NormalizedAsset where
  name : String
  size : NSize
  type : String
  chunks : List String
deriving DecidableEq, Repr

structure NormalizedChunk where
  id : String
  name : String
  size : NSize
  modules : List String
deriving DecidableEq, Repr

structure NormalizedBuildStats where
  timestamp : Nat
  totalSize : NSize
  totalTime : Option Nat
  modules : List NormalizedModule
  assets : List NormalizedAsset
  chunks : List NormalizedChunk
  entrypoints : List String
deriving DecidableEq, Repr

/-! ## String helpers (JavaScript semantics over char lists) -/

/-- Splitting a char list at a separator char, with JavaScript
`String.prototype.split` semantics: the result is never empty, and
empty segments are kept. -/
def splitOnChar (sep : Char) : List Char → List (List Char)
  | [] => [[]]
  | x :: xs =>
    let r := splitOnChar sep xs
    if x == sep then [] :: r
    else
      match r with
      | [] => [[x]]
      | y :: ys => (x :: y) :: ys

/-- JavaScript `s.split('/')`. -/
def jsSplit (s : String) : List String :=
  (splitOnChar '/' s.toList).map (fun l => String.mk l)

/-- JavaScript `s.toLowerCase()`, as a char list. -/
def jsToLower (s : String) : List Char := s.toList.map Char.toLower

/-- Whether the second list is an initial segment of the first. -/
def startsWithL : List Char → List Char → Bool
  | _, [] => true
  | [], _ :: _ => false
  | h :: hs, n :: ns => h == n && startsWithL hs ns

/-- JavaScript `hay.endsWith(sfx)`. -/
def endsWithL (hay sfx : List Char) : Bool := startsWithL hay.reverse sfx.reverse

/-- JavaScript `hay.includes(needle)`: substring containment. -/
def containsSub (hay needle : List Char) : Bool :=
  match hay with
  | [] => needle.isEmpty
  | _ :: hs => startsWithL hay needle || containsSub hs needle

/-! ## Size estimator and type classifier (src/data/normalizer.ts) -/

/-- `Math.floor(rawSize * 0.3)`: the rough gzip approximation of the
source, with exact natural-number arithmetic. -/
def approximateGzipSize (rawSize : Nat) : Nat := rawSize * 3 / 10

def extJs : String := ".js"
def extJsx : String := ".jsx"
def extTs : String := ".ts"
def extTsx : String := ".tsx"
def extCss : String := ".css"
def extScss : String := ".scss"
def extLess : String := ".less"
def extPng : String := ".png"
def extJpg : String := ".jpg"
def extJpeg : String := ".jpeg"
def extGif : String := ".gif"
def extSvg : String := ".svg"
def extWoff : String := ".woff"
def extWoff2 : String := ".woff2"
def extTtf : String := ".ttf"
def extOtf : String := ".otf"
def extJson : String := ".json"
def extWasm : String := ".wasm"
def extMap : String := ".map"
def extHtml : String := ".html"

def tyJs : String := "js"
def tyCss : String := "css"
def tyImage : String := "image"
def tyFont : String := "font"
def tyJson : String := "json"
def tyWasm : String := "wasm"
def tyMap : String := "map"
def tyHtml : String := "html"
def tyUnknown : String := "unknown"
def tyFolder : String := "folder"

/-- Extension-suffix based type classification of `getTypeFromName`. -/
def getTypeFromName (name : String) : String :=
  let lowerName := jsToLower name
  if endsWithL lowerName extJs.toList || endsWithL lowerName extJsx.toList ||
     endsWithL lowerName extTs.toList || endsWithL lowerName extTsx.toList then tyJs
  else if endsWithL lowerName extCss.toList || endsWithL lowerName extScss.toList ||
     endsWithL lowerName extLess.toList then tyCss
  else if endsWithL lowerName extPng.toList || endsWithL lowerName extJpg.toList ||
     endsWithL lowerName extJpeg.toList || endsWithL lowerName extGif.toList ||
     endsWithL lowerName extSvg.toList then tyImage
  else if endsWithL lowerName extWoff.toList || endsWithL lowerName extWoff2.toList ||
     endsWithL lowerName extTtf.toList || endsWithL lowerName extOtf.toList then tyFont
  else if endsWithL lowerName extJson.toList then tyJson
  else if endsWithL lowerName extWasm.toList then tyWasm
  else if endsWithL lowerName extMap.toList then tyMap
  else if endsWithL lowerName extHtml.toList then tyHtml
  else tyUnknown

/-! ## Normalizer (src/data/normalizer.ts, `normalizeWebpackStats`) -/

/-- Creation pass for one raw module: `m.name.split('/').pop() || m.name`
for the display name, full raw name as path, estimated gzip size, empty
dependency sets. -/
def mkNormalizedModule (m : WebpackModule) : NormalizedModule :=
  let lastSeg := (jsSplit m.name).getLastD ""
  { id := m.id
    name := if lastSeg = "" then m.name else lastSeg
    path := m.name
    size := { raw := m.size, gzip := some (approximateGzipSize m.size) }
    type := getTypeFromName m.name
    dependencies := []
    dependents := [] }

/-- Replace the first record whose id matches, leaving the rest alone. -/
def updFirst (i : String) (f : NormalizedModule → NormalizedModule) :
    List NormalizedModule → List NormalizedModule
  | [] => []
  | x :: xs => if x.id = i then f x :: xs else x :: updFirst i f xs

/-- Replace the last record whose id matches.  `moduleMap.get(id)` of the
source returns the record stored by the latest `set`, i.e. the last
record of the array with that id; a mutation through the map is an
update of that array element. -/
def updLast (i : String) (f : NormalizedModule → NormalizedModule)
    (lst : List NormalizedModule) : List NormalizedModule :=
  (updFirst i f lst.reverse).reverse

/-- `moduleMap.has(id)` over the normalized array. -/
def hasId (lst : List NormalizedModule) (i : String) : Bool :=
  lst.any (fun r => r.id = i)

def pushDependency (t : String) (r : NormalizedModule) : NormalizedModule :=
  { r with dependencies := r.dependencies ++ [t] }

def pushDependent (s : String) (r : NormalizedModule) : NormalizedModule :=
  { r with dependents := r.dependents ++ [s] }

/-- Resolution step for a single reason: if the referenced id exists and
differs from the source id, record the edge on both endpoints. -/
def applyReason (sourceId : String) (lst : List NormalizedModule)
    (r : WebpackReason) : List NormalizedModule :=
  let targetId := r.moduleIdentifier
  if hasId lst targetId && !(sourceId == targetId) then
    updLast targetId (pushDependent sourceId)
      (updLast sourceId (pushDependency targetId) lst)
  else lst

/-- Resolution pass for one raw module: fold its reasons. -/
def resolveModule (lst : List NormalizedModule) (m : WebpackModule) :
    List NormalizedModule :=
  if hasId lst m.id then (m.reasons.getD []).foldl (applyReason m.id) lst
  else lst

/-- The two passes over the raw module list. -/
def normalizeModules (raw : List WebpackModule) : List NormalizedModule :=
  raw.foldl resolveModule (raw.map mkNormalizedModule)

def mkNormalizedAsset (a : WebpackAsset) : NormalizedAsset :=
  { name := a.name
    size := { raw := a.size, gzip := some (approximateGzipSize a.size) }
    type := getTypeFromName a.name
    chunks := a.chunks.getD [] }

/-- Asset pass: builds the normalized asset list while accumulating
`totalRawSize` and `totalGzipSize` exactly as the source loop does. -/
def processAssets (assets : List WebpackAsset) :
    List NormalizedAsset × Nat × Nat :=
  assets.foldl
    (fun acc a =>
      let na := mkNormalizedAsset a
      (acc.1 ++ [na], acc.2.1 + a.size, acc.2.2 + (na.size.gzip.getD 0)))
    ([], 0, 0)

def mkNormalizedChunk (c : WebpackChunk) : NormalizedChunk :=
  { id := c.id
    name := match c.names with
            | [] => c.id
            | n :: _ => n
    size := { raw := c.size, gzip := some (approximateGzipSize c.size) }
    modules := (c.modules.getD []).map (fun m => m.id) }

/-- `moduleMap.has` over the raw module list: the map keys are exactly
the (string-coerced) ids of the raw modules. -/
def hasKey (rawMods : List WebpackModule) (mid : String) : Bool :=
  rawMods.any (fun m => m.id = mid)

/-- The entrypoint heuristic: a chunk whose normalized name is truthy
(non-empty) and whose module list is non-empty contributes the first of
its module ids found in the module map, when there is one. -/
def chunkEntry (rawMods : List WebpackModule) (ch : NormalizedChunk) :
    Option String :=
  if ch.name ≠ "" && !ch.modules.isEmpty then
    ch.modules.find? (fun mid => hasKey rawMods mid)
  else none

/-- The full normalizer: `normalizeWebpackStats`. -/
def normalizeWebpackStats (rawStats : WebpackStats) : NormalizedBuildStats :=
  let rawMods := rawStats.modules.getD []
  let mods := normalizeModules rawMods
  let assetsResult := processAssets (rawStats.assets.getD [])
  let chunks := (rawStats.chunks.getD []).map mkNormalizedChunk
  let entrypoints := chunks.filterMap (chunkEntry rawMods)
  { timestamp := 0
    totalSize := { raw := assetsResult.2.1, gzip := some assetsResult.2.2 }
    totalTime := rawStats.time
    modules := mods
    assets := assetsResult.1
    chunks := chunks
    entrypoints := entrypoints }

def invalidFormatMsg : String :=
  "The selected file does not appear to be a valid Webpack stats.json."

/-- Validation step of `loadWebpackStats` (file reading and JSON parsing
are outside the modelled core): a stats object with none of
modules/assets/chunks is rejected. -/
def loadWebpackStats (stats : WebpackStats) : Except String WebpackStats :=
  if stats.assets.isNone && stats.modules.isNone && stats.chunks.isNone then
    Except.error invalidFormatMsg
  else Except.ok stats

/-- `loadAndProcessStatsFile` after the file has been parsed. -/
def loadAndProcessStatsFile (stats : WebpackStats) :
    Except String NormalizedBuildStats :=
  match loadWebpackStats stats with
  | Except.error e => Except.error e
  | Except.ok s => Except.ok (normalizeWebpackStats s)

def isErrorB {α : Type} (x : Except String α) : Bool :=
  match x with
  | Except.error _ => true
  | Except.ok _ => false

/-! ## Mock stats (src/data/ingestion.ts, `mockWebpackStats`) -/

def mockWebpackStats : WebpackStats :=
  { time := some 5200
    assets := some
      [ { name := "main.js", size := 1200000, chunks := some [r"main"] }
      , { name := "vendors.js", size := 800000, chunks := some [r"vendors"] }
      , { name := "style.css", size := 150000, chunks := some [r"main"] }
      , { name := "logo.png", size := 75000, chunks := some [] }
      , { name := "app.js.map", size := 300000, chunks := some [r"main"] } ]
    modules := some
      [ { id := "./src/index.js", name := "./src/index.js", size := 50000
        , reasons := some [ { moduleIdentifier := "./src/App.js", rtype := "harmony import" } ]
        , chunks := some [r"main"] }
      , { id := "./src/App.js", name := "./src/App.js", size := 80000
        , reasons := some
            [ { moduleIdentifier := "./src/components/Button.js", rtype := "harmony import" }
            , { moduleIdentifier := "./node_modules/react/index.js", rtype := "harmony import" } ]
        , chunks := some [r"main"] }
      , { id := "./src/components/Button.js", name := "./src/components/Button.js", size := 15000
        , reasons := some [ { moduleIdentifier := "./src/App.js", rtype := "harmony import" } ]
        , chunks := some [r"main"] }
      , { id := "./node_modules/react/index.js", name := "./node_modules/react/index.js", size := 180000
        , reasons := some [ { moduleIdentifier := "./src/App.js", rtype := "harmony import" } ]
        , chunks := some [r"vendors"] }
      , { id := "./node_modules/lodash/index.js", name := "./node_modules/lodash/index.js", size := 250000
        , reasons := some [ { moduleIdentifier := "./src/utils/data.js", rtype := "harmony import" } ]
        , chunks := some [r"vendors"] }
      , { id := "./src/utils/data.js", name := "./src/utils/data.js", size := 10000
        , reasons := some [ { moduleIdentifier := "./src/App.js", rtype := "harmony import" } ]
        , chunks := some [r"main"] }
      , { id := "./src/styles/main.css", name := "./src/styles/main.css", size := 70000
        , reasons := some []
        , chunks := some [r"main"] } ]
    chunks := some
      [ { id := "main", names := [r"main"], size := 1350000
        , modules := some
            [ { id := "./src/index.js", name := "./src/index.js", size := 50000, reasons := none, chunks := none }
            , { id := "./src/App.js", name := "./src/App.js", size := 80000, reasons := none, chunks := none }
            , { id := "./src/components/Button.js", name := "./src/components/Button.js", size := 15000, reasons := none, chunks := none }
            , { id := "./src/utils/data.js", name := "./src/utils/data.js", size := 10000, reasons := none, chunks := none }
            , { id := "./src/styles/main.css", name := "./src/styles/main.css", size := 70000, reasons := none, chunks := none } ] }
      , { id := "vendors", names := [r"vendors"], size := 430000
        , modules := some
            [ { id := "./node_modules/react/index.js", name := "./node_modules/react/index.js", size := 180000, reasons := none, chunks := none }
            , { id := "./node_modules/lodash/index.js", name := "./node_modules/lodash/index.js", size := 250000, reasons := none, chunks := none } ] } ] }

/-- The normalization of the mock input. -/
def mockNormalized : NormalizedBuildStats := normalizeWebpackStats mockWebpackStats

/-! ## Filter and search engine
(src/webview/app/components/GraphVisualization.tsx and
TreemapVisualization.tsx, `filteredModules`) -/

/-- The filter predicate as the components compute it: the module type
must be active, and the lowercased name or path must include the
lowercased search term. -/
def filteredModules (modules : List NormalizedModule)
    (activeTypes : String → Bool) (searchTerm : String) :
    List NormalizedModule :=
  let lowerSearchTerm := jsToLower searchTerm
  modules.filter (fun m =>
    activeTypes m.type &&
    (containsSub (jsToLower m.name) lowerSearchTerm ||
     containsSub (jsToLower m.path) lowerSearchTerm))

/-- Modelled from the spec wording of the filter contract, for the
refinement claim: a module passes when its type is in `activeTypes` AND
(query is empty, OR the module name or path contains the query as a
case-insensitive substring). -/
def specFilterPred (activeTypes : String → Bool) (query : String)
    (m : NormalizedModule) : Bool :=
  activeTypes m.type &&
  (query == "" ||
   containsSub (jsToLower m.name) (jsToLower query) ||
   containsSub (jsToLower m.path) (jsToLower query))

/-! ## Hierarchy builder (TreemapVisualization.tsx) -/

structure NMRef where
  dummy : Nat
deriving DecidableEq

/-- One node of the treemap data tree: name (one path segment), the
slash-joined full path, the display type (`folder` for internal nodes),
the value, the origin module of a leaf, and the ordered children. -/
inductive TNode where
  | mk (name : String) (path : String) (ty : String) (value : Nat)
       (data : Option NormalizedModule) (children : List TNode)

def TNode.name : TNode → String
  | .mk n _ _ _ _ _ => n

def TNode.path : TNode → String
  | .mk _ p _ _ _ _ => p

def TNode.ty : TNode → String
  | .mk _ _ t _ _ _ => t

def TNode.value : TNode → Nat
  | .mk _ _ _ v _ _ => v

def TNode.data : TNode → Option NormalizedModule
  | .mk _ _ _ _ d _ => d

def TNode.children : TNode → List TNode
  | .mk _ _ _ _ _ cs => cs

def slashStr : String := "/"

/-- `currentPathArray.join('/')`. -/
def joinPath (pre : List String) : String := String.intercalate slashStr pre

/-- Replace the first child whose name matches the segment, or append
the new child at the end (the source pushes newly created nodes). -/
def replaceOrAppend (p : String) (c' : TNode) : List TNode → List TNode
  | [] => [c']
  | c :: rest => if c.name = p then c' :: rest else c :: replaceOrAppend p c' rest

/-- Walk or create nodes segment by segment; at the final segment the
module value and origin are assigned to the node (keeping whatever
children it already has).  Newly created nodes carry value 0 and type
`folder` unless they stand at the final segment. -/
def insertGo (m : NormalizedModule) (pre : List String) :
    List String → TNode → TNode
  | [], n => TNode.mk n.name n.path n.ty m.size.raw (some m) n.children
  | p :: ps, n =>
    let pre' := pre ++ [p]
    let target :=
      match n.children.find? (fun c => c.name = p) with
      | some c => c
      | none =>
        TNode.mk p (joinPath pre')
          (if ps.isEmpty then m.type else tyFolder) 0 none []
    let newChild := insertGo m pre' ps target
    TNode.mk n.name n.path n.ty n.value n.data
      (replaceOrAppend p newChild n.children)

/-- The synthetic root node. -/
def rootData : TNode := TNode.mk "root" "" tyFolder 0 none []

def valuesSum (cs : List TNode) : Nat := (cs.map TNode.value).sum

mutual
/-- d3 `hierarchy().sum(d => d.value || 0)`: each node value becomes the
sum of the value accessor over the node and all its descendants. -/
def sumTree : TNode → TNode
  | .mk n p t v d cs =>
    let cs' := sumForest cs
    .mk n p t (v + valuesSum cs') d cs'
def sumForest : List TNode → List TNode
  | [] => []
  | c :: rest => sumTree c :: sumForest rest
end

/-- Stable insertion of a node into a list sorted by non-increasing
value: the node goes after every node of greater-or-equal value,
matching a stable JavaScript sort under the comparator
`(b.value || 0) - (a.value || 0)`. -/
def insertDesc (x : TNode) : List TNode → List TNode
  | [] => [x]
  | y :: ys => if x.value ≤ y.value then y :: insertDesc x ys else x :: y :: ys

/-- Stable sort by non-increasing value. -/
def sortDesc (l : List TNode) : List TNode :=
  l.foldl (fun acc x => insertDesc x acc) []

mutual
/-- d3 `.sort((a, b) => (b.value || 0) - (a.value || 0))`: sort the
children of every node by descending value (stably). -/
def sortTree : TNode → TNode
  | .mk n p t v d cs => .mk n p t v d (sortDesc (sortForest cs))
def sortForest : List TNode → List TNode
  | [] => []
  | c :: rest => sortTree c :: sortForest rest
end

/-- The full hierarchy construction of the treemap view: trie insertion
of every module path, then the d3 sum and sort passes. -/
def buildHierarchy (modules : List NormalizedModule) : TNode :=
  sortTree (sumTree
    (modules.foldl (fun t m => insertGo m [] (jsSplit m.path) t) rootData))

mutual
/-- A boolean predicate holds at every node of the tree. -/
def allNodes (P : TNode → Bool) : TNode → Bool
  | .mk n p t v d cs => P (.mk n p t v d cs) && allForest P cs
def allForest (P : TNode → Bool) : List TNode → Bool
  | [] => true
  | c :: rest => allNodes P c && allForest P rest
end

/-- The claimed per-node invariant: an internal node value is the sum of
its children values, and a leaf value is the raw size of the module it
represents. -/
def c1P (nd : TNode) : Bool :=
  (match nd.children with
   | [] => true
   | _ :: _ => nd.value == valuesSum nd.children) &&
  (match nd.data, nd.children with
   | some m, [] => nd.value == m.size.raw
   | _, _ => true)

/-- Chain check over adjacent list elements. -/
def chainHolds (r : TNode → TNode → Bool) : List TNode → Bool
  | [] => true
  | [_] => true
  | x :: y :: rest => r x y && chainHolds r (y :: rest)

/-- Children are in non-increasing value order. -/
def sortedByValueP (nd : TNode) : Bool :=
  chainHolds (fun x y => y.value ≤ x.value) nd.children

/-- Lexicographic comparison of names via code points. -/
def lexLe : List Char → List Char → Bool
  | [], _ => true
  | _ :: _, [] => false
  | a :: as, b :: bs =>
    if a == b then lexLe as bs else a.toNat < b.toNat

/-- Children ordered by descending value with ties broken by ascending
name (one reading of the claimed determinism tie-break). -/
def sortedTieNameAscP (nd : TNode) : Bool :=
  chainHolds (fun x y =>
    y.value < x.value ||
    (x.value == y.value && lexLe x.name.toList y.name.toList)) nd.children

/-- Children ordered by descending value with ties broken by descending
name (the other reading of the tie-break). -/
def sortedTieNameDescP (nd : TNode) : Bool :=
  chainHolds (fun x y =>
    y.value < x.value ||
    (x.value == y.value && lexLe y.name.toList x.name.toList)) nd.children

/-! ## Missing-field behaviour of the creation pass (JavaScript dynamic
semantics).  The TypeScript types declare `name` and `size` required,
but the raw stats object is parsed JSON, so either field can be absent
at runtime.  The creation pass then evaluates `m.name.split('/')` on
`undefined` — a TypeError that aborts the whole normalization — or
stores `undefined`/`NaN` sizes (modelled as `none`) without skipping
the record. -/

structure JsRawModule where
  id : String
  name : Option String
  size : Option Nat
deriving DecidableEq, Repr

structure JsNormalizedModule where
  id : String
  name : String
  path : String
  sizeRaw : Option Nat
  sizeGzip : Option Nat
deriving DecidableEq, Repr

def typeErrorMsg : String :=
  "TypeError: cannot read properties of undefined"

/-- Creation of one module record when required fields may be missing:
a missing `name` throws (models the `m.name.split` TypeError); a missing
`size` propagates as undefined/NaN sizes with the record kept. -/
def jsMkModule (m : JsRawModule) : Except String JsNormalizedModule :=
  match m.name with
  | none => Except.error typeErrorMsg
  | some nm =>
    let lastSeg := (jsSplit nm).getLastD ""
    Except.ok
      { id := m.id
        name := if lastSeg = "" then nm else lastSeg
        path := nm
        sizeRaw := m.size
        sizeGzip := m.size.map approximateGzipSize }

/-- The creation pass over a loose raw module list: a thrown TypeError
aborts the whole pass (the `forEach` has no per-record protection). -/
def jsCreationPass : List JsRawModule → Except String (List JsNormalizedModule)
  | [] => Except.ok []
  | m :: rest =>
    match jsMkModule m with
    | Except.error e => Except.error e
    | Except.ok r =>
      match jsCreationPass rest with
      | Except.error e => Except.error e
      | Except.ok rs => Except.ok (r :: rs)

/-! ## Small helper predicates used in theorem statements -/

/-- Every element of the first list occurs in the second. -/
def memAllB (xs ys : List String) : Bool := xs.all (fun x => ys.contains x)

/-- The two lists contain the same elements (equality as sets). -/
def eqSetB (xs ys : List String) : Bool := memAllB xs ys && memAllB ys xs

/-- Generic preservation of an invariant through a left fold. -/
theorem foldl_preserve {α β : Type} (step : α → β → α) (Inv : α → Prop)
    (h : ∀ a b, Inv a → Inv (step a b)) :
    ∀ (l : List β) (a : α), Inv a → Inv (l.foldl step a) := by
  intro l
  induction l with
  | nil => intro a ha; simpa using ha
  | cons b bs ih =>
    intro a ha
    simpa using ih (step a b) (h a b ha)

/-- Empty needle: JavaScript `includes("")` is always true. -/
theorem containsSub_nil (hay : List Char) : containsSub hay [] = true := by
  cases hay <;> simp [containsSub, startsWithL, List.isEmpty]

/-! ## Claim C4: the filter predicate -/

/-- Claim C4: for every module list, type-visibility set and query
string, the filter returns exactly the modules whose type is active and
for which the query is empty or appears case-insensitively in the name
or path, preserving input order (stated as equality with `List.filter`
of the spec predicate over the input list). -/
theorem filter_matches_spec (modules : List NormalizedModule)
    (activeTypes : String → Bool) (query : String) :
    filteredModules modules activeTypes query =
      modules.filter (specFilterPred activeTypes query) := by
  unfold filteredModules specFilterPred
  apply List.filter_congr
  intro m _
  by_cases hq : query = ""
  · subst hq
    simp [jsToLower, containsSub_nil]
  · have : (query == "") = false := by
      simpa using hq
    rw [this]
    simp

/-! ## Claim C9: identity when unfiltered -/

/-- Claim C9: filtering with every type active and the empty query
returns the input list unchanged. -/
theorem filter_identity (modules : List NormalizedModule) :
    filteredModules modules (fun _ => true) "" = modules := by
  unfold filteredModules
  rw [List.filter_eq_self]
  intro m _
  simp [jsToLower, containsSub_nil]

/-! ## Claim C3: normalization of the documented mock input -/

/-- Counterexample to claim C3 as stated: in the normalization of the
mock input, the dependents of `./src/App.js` are NOT exactly
`./src/index.js` — the resolution pass also records
`./src/components/Button.js`, `./node_modules/react/index.js` and
`./src/utils/data.js` as dependents, because each of those raw modules
lists `./src/App.js` among its reasons. -/
theorem mock_app_dependents_not_just_index :
    (mockNormalized.modules.all (fun m =>
      !(m.id == "./src/App.js") || eqSetB m.dependents [r"./src/index.js"]))
      = false := by decide

/-- Claim C3 amended: the mock input normalizes to
`totalSize.raw = 2525000`, 7 modules and 2 chunks, and `./src/App.js`
has dependencies exactly the set containing Button.js and react, and
dependents exactly the set containing index.js, Button.js, react and
data.js (every module whose reasons mention App.js). -/
theorem mock_normalization_facts :
    mockNormalized.totalSize.raw = 2525000 ∧
    mockNormalized.modules.length = 7 ∧
    mockNormalized.chunks.length = 2 ∧
    (mockNormalized.modules.any (fun m => m.id == "./src/App.js")) = true ∧
    (mockNormalized.modules.all (fun m =>
      !(m.id == "./src/App.js") ||
      (eqSetB m.dependencies
          [r"./src/components/Button.js", r"./node_modules/react/index.js"] &&
       eqSetB m.dependents
          [r"./src/index.js", r"./src/components/Button.js",
           r"./node_modules/react/index.js", r"./src/utils/data.js"]))) = true := by
  refine ⟨by decide, by decide, by decide, by decide, by decide⟩

/-! ## Claim C5: the InvalidFormat failure policy -/

/-- Claim C5: the load-and-normalize pipeline fails exactly when the raw
stats object lacks all three of modules, assets and chunks; a
present-but-empty collection is accepted and normalizes to an empty
list. -/
theorem invalid_format_iff_all_absent (stats : WebpackStats) :
    (isErrorB (loadAndProcessStatsFile stats) = true ↔
      stats.assets = none ∧ stats.modules = none ∧ stats.chunks = none) ∧
    (stats.modules = some [] → (normalizeWebpackStats stats).modules = []) ∧
    (stats.assets = some [] → (normalizeWebpackStats stats).assets = []) ∧
    (stats.chunks = some [] → (normalizeWebpackStats stats).chunks = [] ∧
      (normalizeWebpackStats stats).entrypoints = []) := by
  refine ⟨?_, ?_, ?_, ?_⟩
  · unfold loadAndProcessStatsFile loadWebpackStats
    by_cases ha : stats.assets = none <;>
      by_cases hm : stats.modules = none <;>
        by_cases hc : stats.chunks = none <;>
          simp [ha, hm, hc, isErrorB, Option.isNone_iff_eq_none]
  · intro h
    unfold normalizeWebpackStats normalizeModules
    simp [h]
  · intro h
    unfold normalizeWebpackStats processAssets
    simp [h]
  · intro h
    unfold normalizeWebpackStats
    simp [h]

def c5WitnessInput : WebpackStats :=
  { time := none, assets := none, modules := some [], chunks := none }

/-- Witness for C5: a stats object whose only present collection is an
empty module list is accepted and yields an empty module list. -/
theorem invalid_format_iff_all_absent_witness :
    isErrorB (loadAndProcessStatsFile c5WitnessInput) = false ∧
    (normalizeWebpackStats c5WitnessInput).modules = [] :=
  ⟨by decide, (invalid_format_iff_all_absent c5WitnessInput).2.1 rfl⟩

/-! ## Claim C6: no skip-and-continue for malformed records -/

def c6CexInput : List JsRawModule :=
  [ { id := "a", name := some "a.js", size := some 10 }
  , { id := "b", name := none, size := some 5 } ]

/-- Counterexample to claim C6 as stated: on a raw input whose second
module record lacks the required `name`, the creation pass aborts with
a TypeError instead of skipping that record and producing output from
the remaining records. -/
theorem missing_name_aborts_cex :
    isErrorB (jsCreationPass c6CexInput) = true := by decide

/-- Claim C6 amended: whenever any module record in the raw list is
missing its `name`, the whole creation pass fails; no record is
skipped. -/
theorem missing_name_aborts (ms : List JsRawModule)
    (h : ∃ m ∈ ms, m.name = none) :
    isErrorB (jsCreationPass ms) = true := by
  induction ms with
  | nil => simp at h
  | cons m rest ih =>
    rcases h with ⟨x, hx, hname⟩
    rcases List.mem_cons.mp hx with hx | hx
    · subst hx
      unfold jsCreationPass jsMkModule
      rw [hname]
      rfl
    · unfold jsCreationPass
      cases hm : jsMkModule m with
      | error e => rfl
      | ok r =>
        have := ih ⟨x, hx, hname⟩
        cases hr : jsCreationPass rest with
        | error e => rfl
        | ok rs => rw [hr] at this; simp [isErrorB] at this

def c6WitnessInput : List JsRawModule :=
  [ { id := "b", name := none, size := some 5 } ]

/-- Witness for the amended C6. -/
theorem missing_name_aborts_witness :
    (∃ m ∈ c6WitnessInput, m.name = none) ∧
    isErrorB (jsCreationPass c6WitnessInput) = true :=
  ⟨by decide, missing_name_aborts c6WitnessInput (by decide)⟩

/-! ## Claim C7: the entrypoint heuristic -/

def c7CexInput : WebpackStats :=
  { time := none
  , assets := none
  , modules := some
      [ { id := "x", name := "x.js", size := 10, reasons := none, chunks := none } ]
  , chunks := some
      [ { id := "c1", names := [], size := 10
        , modules := some
            [ { id := "x", name := "x.js", size := 10, reasons := none, chunks := none } ] } ] }

/-- Counterexample to claim C7 as stated: a chunk with NO declared name
(empty `names`) falls back to its id, which is a non-empty string, so it
still contributes an entrypoint — the claim says such a chunk
contributes none. -/
theorem unnamed_chunk_contributes_entrypoint :
    ((c7CexInput.chunks.getD []).all (fun c => c.names.isEmpty)) = true ∧
    (normalizeWebpackStats c7CexInput).entrypoints = [r"x"] := by
  refine ⟨by decide, by decide⟩

/-- Direct recomputation of the entrypoint list from the raw input: a
chunk contributes its first module id present among the raw module ids
exactly when its normalized name (first declared name, or the chunk id
when none is declared) is a non-empty string and its module id list is
non-empty. -/
def entrypointsDirect (raw : WebpackStats) : List String :=
  (raw.chunks.getD []).filterMap (fun c =>
    let nm := match c.names with
              | [] => c.id
              | n :: _ => n
    let mids := (c.modules.getD []).map (fun m => m.id)
    if nm ≠ "" && !mids.isEmpty then
      mids.find? (fun mid => (raw.modules.getD []).any (fun m => m.id = mid))
    else none)

/-- Claim C7 amended: the normalized entrypoints are exactly, for each
chunk in order whose normalized name (first declared name, or the id
for an unnamed chunk) is non-empty and whose module list is non-empty,
the first module id of the chunk that resolves against the module
index, when one exists. -/
theorem entrypoints_characterization (raw : WebpackStats) :
    (normalizeWebpackStats raw).entrypoints = entrypointsDirect raw := by
  unfold normalizeWebpackStats entrypointsDirect
  dsimp only
  rw [List.filterMap_map]
  apply List.filterMap_congr
  intro c _
  rfl

/-! ## Claim C10: gzip estimates -/

/-- The asset fold computes the mapped asset list and the two running
totals. -/
theorem processAssets_eq (assets : List WebpackAsset) :
    processAssets assets =
      (assets.map mkNormalizedAsset,
       (assets.map (fun a => a.size)).sum,
       (assets.map (fun a => approximateGzipSize a.size)).sum) := by
  have go : ∀ (as : List WebpackAsset) (l : List NormalizedAsset) (r g : Nat),
      as.foldl (fun acc a =>
        let na := mkNormalizedAsset a
        (acc.1 ++ [na], acc.2.1 + a.size, acc.2.2 + (na.size.gzip.getD 0)))
        (l, r, g) =
      (l ++ as.map mkNormalizedAsset,
       r + (as.map (fun a => a.size)).sum,
       g + (as.map (fun a => approximateGzipSize a.size)).sum) := by
    intro as
    induction as with
    | nil => intro l r g; simp
    | cons a rest ih =>
      intro l r g
      simp only [List.foldl_cons, List.map_cons, List.sum_cons]
      rw [ih]
      refine congrArg₂ Prod.mk ?_ (congrArg₂ Prod.mk ?_ ?_)
      · simp
      · omega
      · simp only [mkNormalizedAsset, Option.getD_some]
        omega
  unfold processAssets
  rw [go]
  simp

theorem mem_updFirst {i : String} {f : NormalizedModule → NormalizedModule}
    {l : List NormalizedModule} {x : NormalizedModule}
    (h : x ∈ updFirst i f l) : x ∈ l ∨ ∃ y ∈ l, x = f y := by
  induction l with
  | nil => simp [updFirst] at h
  | cons a as ih =>
    by_cases ha : a.id = i
    · simp [updFirst, ha] at h
      rcases h with h | h
      · right; exact ⟨a, by simp, h⟩
      · left; simp [h]
    · simp [updFirst, ha] at h
      rcases h with h | h
      · left; simp [h]
      · rcases ih h with h' | ⟨y, hy, hxy⟩
        · left; simp [h']
        · right; exact ⟨y, by simp [hy], hxy⟩

theorem mem_updLast {i : String} {f : NormalizedModule → NormalizedModule}
    {l : List NormalizedModule} {x : NormalizedModule}
    (h : x ∈ updLast i f l) : x ∈ l ∨ ∃ y ∈ l, x = f y := by
  unfold updLast at h
  rw [List.mem_reverse] at h
  rcases mem_updFirst h with h' | ⟨y, hy, hxy⟩
  · left; exact List.mem_reverse.mp h'
  · right; exact ⟨y, List.mem_reverse.mp hy, hxy⟩

/-- Any per-record property preserved by the two push operations is
preserved by a resolution step. -/
theorem applyReason_preserve (Q : NormalizedModule → Prop)
    (hdep : ∀ t r, Q r → Q (pushDependency t r))
    (hdept : ∀ s r, Q r → Q (pushDependent s r))
    (sid : String) (lst : List NormalizedModule) (rsn : WebpackReason)
    (h : ∀ r ∈ lst, Q r) :
    ∀ r ∈ applyReason sid lst rsn, Q r := by
  intro r hr
  unfold applyReason at hr
  dsimp only at hr
  split at hr
  · rcases mem_updLast hr with h1 | ⟨y, hy, rfl⟩
    · rcases mem_updLast h1 with h2 | ⟨z, hz, rfl⟩
      · exact h _ h2
      · exact hdep _ _ (h _ hz)
    · rcases mem_updLast hy with h2 | ⟨z, hz, rfl⟩
      · exact hdept _ _ (h _ h2)
      · exact hdept _ _ (hdep _ _ (h _ hz))
  · exact h _ hr

/-- Any per-record property preserved by the push operations and
established by the creation pass holds of every normalized module. -/
theorem normalizeModules_preserve (Q : NormalizedModule → Prop)
    (hdep : ∀ t r, Q r → Q (pushDependency t r))
    (hdept : ∀ s r, Q r → Q (pushDependent s r))
    (hbase : ∀ m, Q (mkNormalizedModule m))
    (raw : List WebpackModule) :
    ∀ r ∈ normalizeModules raw, Q r := by
  unfold normalizeModules
  have base : ∀ r ∈ raw.map mkNormalizedModule, Q r := by
    intro r hr
    rcases List.mem_map.mp hr with ⟨m, _, rfl⟩
    exact hbase m
  refine foldl_preserve resolveModule (fun lst => ∀ r ∈ lst, Q r) ?_ raw _ base
  intro lst m hlst
  unfold resolveModule
  split
  · exact foldl_preserve (applyReason m.id) (fun l => ∀ r ∈ l, Q r)
      (fun l rsn hl => applyReason_preserve Q hdep hdept m.id l rsn hl) _ _ hlst
  · exact hlst

/-- Claim C10: every normalized module and asset carries a present gzip
estimate equal to `floor(size.raw * 0.3)` (hence between 0 and the raw
size), and the total gzip size is the sum of the per-asset estimates. -/
theorem gzip_estimates (rawStats : WebpackStats) :
    (∀ m ∈ (normalizeWebpackStats rawStats).modules,
        m.size.gzip = some (m.size.raw * 3 / 10) ∧ m.size.raw * 3 / 10 ≤ m.size.raw) ∧
    (∀ a ∈ (normalizeWebpackStats rawStats).assets,
        a.size.gzip = some (a.size.raw * 3 / 10) ∧ a.size.raw * 3 / 10 ≤ a.size.raw) ∧
    (normalizeWebpackStats rawStats).totalSize.gzip =
      some (((normalizeWebpackStats rawStats).assets.map
        (fun a => a.size.gzip.getD 0)).sum) := by
  have hmods : (normalizeWebpackStats rawStats).modules =
      normalizeModules (rawStats.modules.getD []) := by
    unfold normalizeWebpackStats
    dsimp only
  have hassets : (normalizeWebpackStats rawStats).assets =
      (rawStats.assets.getD []).map mkNormalizedAsset := by
    unfold normalizeWebpackStats
    dsimp only
    rw [processAssets_eq]
  have htotal : (normalizeWebpackStats rawStats).totalSize.gzip =
      some (((rawStats.assets.getD []).map
        (fun a => approximateGzipSize a.size)).sum) := by
    unfold normalizeWebpackStats
    dsimp only
    rw [processAssets_eq]
  refine ⟨?_, ?_, ?_⟩
  · rw [hmods]
    intro m hm
    have hQ := normalizeModules_preserve
      (fun r => r.size.gzip = some (r.size.raw * 3 / 10))
      (fun t r h => h) (fun s r h => h)
      (fun m => by simp [mkNormalizedModule, approximateGzipSize])
      (rawStats.modules.getD []) m hm
    exact ⟨hQ, by omega⟩
  · rw [hassets]
    intro a ha
    rcases List.mem_map.mp ha with ⟨a0, _, rfl⟩
    refine ⟨by simp [mkNormalizedAsset, approximateGzipSize], by omega⟩
  · rw [htotal, hassets]
    rw [List.map_map]
    refine congrArg some (congrArg List.sum ?_)
    apply List.map_congr_left
    intro a _
    simp [mkNormalizedAsset, approximateGzipSize]

/-- The normalized record of the mock `./src/styles/main.css` module
(untouched by the resolution pass: nothing references it and its own
reason list is empty). -/
def cssModuleRec : NormalizedModule :=
  { id := "./src/styles/main.css"
    name := "main.css"
    path := "./src/styles/main.css"
    size := { raw := 70000, gzip := some 21000 }
    type := "css"
    dependencies := []
    dependents := [] }

/-- The normalized record of the mock `logo.png` asset. -/
def pngAssetRec : NormalizedAsset :=
  { name := "logo.png"
    size := { raw := 75000, gzip := some 22500 }
    type := "image"
    chunks := [] }

/-- Witness for C10, instantiated at the mock input. -/
theorem gzip_estimates_witness :
    (cssModuleRec.size.gzip = some (cssModuleRec.size.raw * 3 / 10) ∧
     cssModuleRec.size.raw * 3 / 10 ≤ cssModuleRec.size.raw) ∧
    (pngAssetRec.size.gzip = some (pngAssetRec.size.raw * 3 / 10) ∧
     pngAssetRec.size.raw * 3 / 10 ≤ pngAssetRec.size.raw) ∧
    (normalizeWebpackStats mockWebpackStats).totalSize.gzip =
      some (((normalizeWebpackStats mockWebpackStats).assets.map
        (fun a => a.size.gzip.getD 0)).sum) :=
  ⟨(gzip_estimates mockWebpackStats).1 cssModuleRec (by decide),
   (gzip_estimates mockWebpackStats).2.1 pngAssetRec (by decide),
   (gzip_estimates mockWebpackStats).2.2⟩


/-! ## Claim C2: symmetry, self-freedom and closure of the dependency
graph -/

theorem hasId_iff (L : List NormalizedModule) (i : String) :
    hasId L i = true ↔ i ∈ L.map (fun r => r.id) := by
  unfold hasId
  rw [List.any_eq_true]
  constructor
  · rintro ⟨r, hr, hid⟩
    exact List.mem_map.mpr ⟨r, hr, of_decide_eq_true hid⟩
  · intro h
    rcases List.mem_map.mp h with ⟨r, hr, hid⟩
    exact ⟨r, hr, decide_eq_true hid⟩

/-- With pairwise-distinct ids there is at most one matching record, so
replacing the first match is a pointwise map. -/
theorem updFirst_eq_map (i : String) (f : NormalizedModule → NormalizedModule)
    (l : List NormalizedModule) (h : (l.map (fun r => r.id)).Nodup) :
    updFirst i f l = l.map (fun x => if x.id = i then f x else x) := by
  induction l with
  | nil => rfl
  | cons a as ih =>
    rw [List.map_cons, List.nodup_cons] at h
    obtain ⟨hnotin, hnd⟩ := h
    by_cases ha : a.id = i
    · have hrest : as.map (fun x => if x.id = i then f x else x) = as := by
        have : ∀ x ∈ as, (if x.id = i then f x else x) = x := by
          intro x hx
          have hx_ne : x.id ≠ i := by
            intro hxi
            exact hnotin (List.mem_map.mpr ⟨x, hx, by rw [hxi, ha]⟩)
          rw [if_neg hx_ne]
        calc as.map (fun x => if x.id = i then f x else x)
            = as.map id := List.map_congr_left (by simpa using this)
          _ = as := List.map_id as
      unfold updFirst
      rw [if_pos ha, List.map_cons, if_pos ha, hrest]
    · unfold updFirst
      rw [if_neg ha, List.map_cons, if_neg ha, ih hnd]

theorem updLast_eq_map (i : String) (f : NormalizedModule → NormalizedModule)
    (l : List NormalizedModule) (h : (l.map (fun r => r.id)).Nodup) :
    updLast i f l = l.map (fun x => if x.id = i then f x else x) := by
  unfold updLast
  rw [updFirst_eq_map i f l.reverse
      (by rw [List.map_reverse]; exact List.nodup_reverse.mpr h)]
  rw [List.map_reverse, List.reverse_reverse]

theorem ids_map_of_preserve {g : NormalizedModule → NormalizedModule}
    (hg : ∀ x, (g x).id = x.id) (L : List NormalizedModule) :
    (L.map g).map (fun r => r.id) = L.map (fun r => r.id) := by
  rw [List.map_map]
  apply List.map_congr_left
  intro x _
  exact hg x

/-- The effect of one resolved reason on one record: the source record
gains the target id as a dependency, the target record gains the source
id as a dependent, all other records are untouched. -/
def linkStep (sid tid : String) (x : NormalizedModule) : NormalizedModule :=
  if x.id = sid then pushDependency tid x
  else if x.id = tid then pushDependent sid x
  else x

theorem linkStep_id (sid tid : String) (x : NormalizedModule) :
    (linkStep sid tid x).id = x.id := by
  unfold linkStep pushDependency pushDependent
  split
  · rfl
  · split <;> rfl

theorem linkStep_deps (sid tid : String) (x : NormalizedModule) :
    (linkStep sid tid x).dependencies =
      if x.id = sid then x.dependencies ++ [tid] else x.dependencies := by
  unfold linkStep pushDependency pushDependent
  by_cases h1 : x.id = sid
  · rw [if_pos h1, if_pos h1]
  · rw [if_neg h1, if_neg h1]
    split <;> rfl

theorem linkStep_dept (sid tid : String) (x : NormalizedModule)
    (hne : sid ≠ tid) :
    (linkStep sid tid x).dependents =
      if x.id = tid then x.dependents ++ [sid] else x.dependents := by
  unfold linkStep pushDependency pushDependent
  by_cases h1 : x.id = sid
  · have h2 : x.id ≠ tid := by rw [h1]; exact hne
    rw [if_pos h1, if_neg h2]
  · rw [if_neg h1]
    by_cases h2 : x.id = tid
    · rw [if_pos h2, if_pos h2]
    · rw [if_neg h2, if_neg h2]

/-- The record-level invariant of claim C2: the dependency and dependent
relations are symmetric, self-reference-free, and refer only to ids of
records present in the collection. -/
def DepGraphInv (L : List NormalizedModule) : Prop :=
  (∀ a ∈ L, ∀ b ∈ L, (b.id ∈ a.dependencies ↔ a.id ∈ b.dependents)) ∧
  (∀ a ∈ L, a.id ∉ a.dependencies ∧ a.id ∉ a.dependents) ∧
  (∀ a ∈ L, (∀ x ∈ a.dependencies, x ∈ L.map (fun r => r.id)) ∧
            (∀ x ∈ a.dependents, x ∈ L.map (fun r => r.id)))

theorem linkStep_inv (sid tid : String) (L : List NormalizedModule)
    (hne : sid ≠ tid)
    (hsid : sid ∈ L.map (fun r => r.id))
    (htid : tid ∈ L.map (fun r => r.id))
    (hinv : DepGraphInv L) :
    DepGraphInv (L.map (linkStep sid tid)) := by
  obtain ⟨hsym, hself, hclosed⟩ := hinv
  have hids := ids_map_of_preserve (linkStep_id sid tid) L
  refine ⟨?_, ?_, ?_⟩
  · intro a ha b hb
    rcases List.mem_map.mp ha with ⟨a0, ha0, rfl⟩
    rcases List.mem_map.mp hb with ⟨b0, hb0, rfl⟩
    rw [linkStep_id, linkStep_id, linkStep_deps, linkStep_dept _ _ _ hne]
    have hold := hsym a0 ha0 b0 hb0
    by_cases h1 : a0.id = sid <;> by_cases h2 : b0.id = tid
    · rw [if_pos h1, if_pos h2]
      simp only [List.mem_append, List.mem_singleton]
      tauto
    · rw [if_pos h1, if_neg h2]
      simp only [List.mem_append, List.mem_singleton]
      tauto
    · rw [if_neg h1, if_pos h2]
      simp only [List.mem_append, List.mem_singleton]
      tauto
    · rw [if_neg h1, if_neg h2]
      exact hold
  · intro a ha
    rcases List.mem_map.mp ha with ⟨a0, ha0, rfl⟩
    rw [linkStep_id, linkStep_deps, linkStep_dept _ _ _ hne]
    obtain ⟨hd, hdt⟩ := hself a0 ha0
    constructor
    · by_cases h1 : a0.id = sid
      · rw [if_pos h1]
        simp only [List.mem_append, List.mem_singleton]
        rintro (h | h)
        · exact hd h
        · exact hne (by rw [← h1, h])
      · rw [if_neg h1]
        exact hd
    · by_cases h2 : a0.id = tid
      · rw [if_pos h2]
        simp only [List.mem_append, List.mem_singleton]
        rintro (h | h)
        · exact hdt h
        · exact hne (by rw [← h2, ← h])
      · rw [if_neg h2]
        exact hdt
  · intro a ha
    rcases List.mem_map.mp ha with ⟨a0, ha0, rfl⟩
    rw [linkStep_deps, linkStep_dept _ _ _ hne, hids]
    obtain ⟨hc1, hc2⟩ := hclosed a0 ha0
    constructor
    · by_cases h1 : a0.id = sid
      · rw [if_pos h1]
        intro x hx
        rcases List.mem_append.mp hx with hx | hx
        · exact hc1 x hx
        · rw [List.mem_singleton.mp hx]
          exact htid
      · rw [if_neg h1]
        exact hc1
    · by_cases h2 : a0.id = tid
      · rw [if_pos h2]
        intro x hx
        rcases List.mem_append.mp hx with hx | hx
        · exact hc2 x hx
        · rw [List.mem_singleton.mp hx]
          exact hsid
      · rw [if_neg h2]
        exact hc2

/-- Under distinct ids a resolution step is the pointwise `linkStep`
map when the guard passes, and the identity otherwise. -/
theorem applyReason_eq (sid : String) (L : List NormalizedModule)
    (rsn : WebpackReason) (hnd : (L.map (fun r => r.id)).Nodup) :
    applyReason sid L rsn =
      if hasId L rsn.moduleIdentifier && !(sid == rsn.moduleIdentifier) then
        L.map (linkStep sid rsn.moduleIdentifier)
      else L := by
  unfold applyReason
  dsimp only
  by_cases hcond :
      (hasId L rsn.moduleIdentifier && !(sid == rsn.moduleIdentifier)) = true
  · rw [if_pos hcond, if_pos hcond]
    have hne : sid ≠ rsn.moduleIdentifier := by
      have h2 := (Bool.and_eq_true _ _).mp hcond |>.2
      rw [Bool.not_eq_true'] at h2
      exact ne_of_beq_false h2
    have hgid : ∀ x : NormalizedModule,
        ((fun y => if y.id = sid then pushDependency rsn.moduleIdentifier y else y) x).id
          = x.id := by
      intro x
      by_cases hx : x.id = sid
      · dsimp only
        rw [if_pos hx]
        rfl
      · dsimp only
        rw [if_neg hx]
    have hnd1 : ((updLast sid (pushDependency rsn.moduleIdentifier) L).map
        (fun r => r.id)).Nodup := by
      rw [updLast_eq_map _ _ _ hnd, ids_map_of_preserve hgid L]
      exact hnd
    rw [updLast_eq_map _ _ _ hnd1, updLast_eq_map _ _ _ hnd, List.map_map]
    apply List.map_congr_left
    intro x _
    dsimp only [Function.comp]
    by_cases h1 : x.id = sid
    · have hpid : (pushDependency rsn.moduleIdentifier x).id = x.id := rfl
      rw [if_pos h1]
      have : (pushDependency rsn.moduleIdentifier x).id ≠ rsn.moduleIdentifier := by
        rw [hpid, h1]; exact hne
      rw [if_neg this]
      unfold linkStep
      rw [if_pos h1]
    · rw [if_neg h1]
      unfold linkStep
      rw [if_neg h1]
  · rw [if_neg hcond, if_neg hcond]

/-- One resolution step preserves the dependency-graph invariant and
the id sequence. -/
theorem applyReason_inv (sid : String) (L : List NormalizedModule)
    (rsn : WebpackReason) (hnd : (L.map (fun r => r.id)).Nodup)
    (hsid : sid ∈ L.map (fun r => r.id)) (hinv : DepGraphInv L) :
    DepGraphInv (applyReason sid L rsn) ∧
    (applyReason sid L rsn).map (fun r => r.id) = L.map (fun r => r.id) := by
  rw [applyReason_eq sid L rsn hnd]
  by_cases hcond :
      (hasId L rsn.moduleIdentifier && !(sid == rsn.moduleIdentifier)) = true
  · rw [if_pos hcond]
    have h1 := (Bool.and_eq_true _ _).mp hcond |>.1
    have h2 := (Bool.and_eq_true _ _).mp hcond |>.2
    rw [Bool.not_eq_true'] at h2
    have hne : sid ≠ rsn.moduleIdentifier := ne_of_beq_false h2
    have htid : rsn.moduleIdentifier ∈ L.map (fun r => r.id) :=
      (hasId_iff L rsn.moduleIdentifier).mp h1
    exact ⟨linkStep_inv sid rsn.moduleIdentifier L hne hsid htid hinv,
           ids_map_of_preserve (linkStep_id sid rsn.moduleIdentifier) L⟩
  · rw [if_neg hcond]
    exact ⟨hinv, rfl⟩

/-- The resolution pass for one raw module preserves the invariant and
the id sequence. -/
theorem resolveModule_inv (m : WebpackModule) (L : List NormalizedModule)
    (hnd : (L.map (fun r => r.id)).Nodup) (hinv : DepGraphInv L) :
    (resolveModule L m).map (fun r => r.id) = L.map (fun r => r.id) ∧
    DepGraphInv (resolveModule L m) := by
  unfold resolveModule
  split
  case isTrue hguard =>
    have hmid : m.id ∈ L.map (fun r => r.id) := (hasId_iff L m.id).mp hguard
    have := foldl_preserve (applyReason m.id)
      (fun acc => acc.map (fun r => r.id) = L.map (fun r => r.id) ∧
        DepGraphInv acc)
      (by
        intro acc rsn hacc
        obtain ⟨hids, hinv'⟩ := hacc
        have hnd' : (acc.map (fun r => r.id)).Nodup := by rw [hids]; exact hnd
        have hsid' : m.id ∈ acc.map (fun r => r.id) := by rw [hids]; exact hmid
        obtain ⟨hinv2, hids2⟩ := applyReason_inv m.id acc rsn hnd' hsid' hinv'
        exact ⟨by rw [hids2, hids], hinv2⟩)
      (m.reasons.getD []) L ⟨rfl, hinv⟩
    exact this
  case isFalse => exact ⟨rfl, hinv⟩

/-- Both passes: distinct raw ids give the full invariant for the
normalized module collection. -/
theorem normalizeModules_inv (raw : List WebpackModule)
    (h : (raw.map (fun m => m.id)).Nodup) :
    DepGraphInv (normalizeModules raw) := by
  unfold normalizeModules
  have hids0 : (raw.map mkNormalizedModule).map (fun r => r.id) =
      raw.map (fun m => m.id) := by
    rw [List.map_map]
    apply List.map_congr_left
    intro m _
    rfl
  have hbase : DepGraphInv (raw.map mkNormalizedModule) := by
    have hempty : ∀ a ∈ raw.map mkNormalizedModule,
        a.dependencies = [] ∧ a.dependents = [] := by
      intro a ha
      rcases List.mem_map.mp ha with ⟨m, _, rfl⟩
      exact ⟨rfl, rfl⟩
    refine ⟨?_, ?_, ?_⟩
    · intro a ha b hb
      rw [(hempty a ha).1, (hempty b hb).2]
      simp
    · intro a ha
      rw [(hempty a ha).1, (hempty a ha).2]
      simp
    · intro a ha
      rw [(hempty a ha).1, (hempty a ha).2]
      simp
  have := foldl_preserve resolveModule
    (fun acc => acc.map (fun r => r.id) = raw.map (fun m => m.id) ∧
      DepGraphInv acc)
    (by
      intro acc m hacc
      obtain ⟨hids, hinv⟩ := hacc
      have hnd : (acc.map (fun r => r.id)).Nodup := by rw [hids]; exact h
      obtain ⟨hids2, hinv2⟩ := resolveModule_inv m acc hnd hinv
      exact ⟨by rw [hids2, hids], hinv2⟩)
    raw (raw.map mkNormalizedModule) ⟨hids0, hbase⟩
  exact this.2

/-- Claim C2 amended: for every raw input whose (string-coerced) module
ids are pairwise distinct, the normalized module collection has a
symmetric dependency/dependent relation, contains no self-references,
and refers only to ids of present modules. -/
theorem dependency_graph_invariants (rawStats : WebpackStats)
    (h : ((rawStats.modules.getD []).map (fun m => m.id)).Nodup) :
    ∀ a ∈ (normalizeWebpackStats rawStats).modules,
      (∀ b ∈ (normalizeWebpackStats rawStats).modules,
        (b.id ∈ a.dependencies ↔ a.id ∈ b.dependents)) ∧
      a.id ∉ a.dependencies ∧ a.id ∉ a.dependents ∧
      (∀ x ∈ a.dependencies,
        ∃ b ∈ (normalizeWebpackStats rawStats).modules, b.id = x) ∧
      (∀ x ∈ a.dependents,
        ∃ b ∈ (normalizeWebpackStats rawStats).modules, b.id = x) := by
  have hmods : (normalizeWebpackStats rawStats).modules =
      normalizeModules (rawStats.modules.getD []) := by
    unfold normalizeWebpackStats
    dsimp only
  rw [hmods]
  obtain ⟨hsym, hself, hclosed⟩ := normalizeModules_inv _ h
  intro a ha
  refine ⟨hsym a ha, (hself a ha).1, (hself a ha).2, ?_, ?_⟩
  · intro x hx
    have := (hclosed a ha).1 x hx
    rcases List.mem_map.mp this with ⟨b, hb, hbx⟩
    exact ⟨b, hb, hbx⟩
  · intro x hx
    have := (hclosed a ha).2 x hx
    rcases List.mem_map.mp this with ⟨b, hb, hbx⟩
    exact ⟨b, hb, hbx⟩

def c2CexInput : WebpackStats :=
  { time := none
  , assets := none
  , modules := some
      [ { id := "1", name := "a.js", size := 10
        , reasons := some [ { moduleIdentifier := "2", rtype := "import" } ]
        , chunks := none }
      , { id := "2", name := "b.js", size := 20, reasons := some [], chunks := none }
      , { id := "1", name := "c.js", size := 30, reasons := some [], chunks := none } ]
  , chunks := none }

/-- Counterexample to claim C2 as stated (over all raw inputs): with a
duplicated raw module id, the map-resident record receives the
dependency edges while the stale record keeps empty lists, so the
record-level symmetry fails. -/
theorem duplicate_ids_break_symmetry :
    ((normalizeWebpackStats c2CexInput).modules.all (fun a =>
      (normalizeWebpackStats c2CexInput).modules.all (fun b =>
        (a.dependencies.contains b.id) == (b.dependents.contains a.id))))
      = false := by decide

/-- Witness for the amended C2 at the mock input (whose ids are
pairwise distinct), instantiated at the normalized record of
`./src/styles/main.css`. -/
theorem dependency_graph_invariants_witness :
    (((mockWebpackStats.modules.getD []).map (fun m => m.id)).Nodup) ∧
    ((∀ b ∈ (normalizeWebpackStats mockWebpackStats).modules,
        (b.id ∈ cssModuleRec.dependencies ↔ cssModuleRec.id ∈ b.dependents)) ∧
      cssModuleRec.id ∉ cssModuleRec.dependencies ∧
      cssModuleRec.id ∉ cssModuleRec.dependents ∧
      (∀ x ∈ cssModuleRec.dependencies,
        ∃ b ∈ (normalizeWebpackStats mockWebpackStats).modules, b.id = x) ∧
      (∀ x ∈ cssModuleRec.dependents,
        ∃ b ∈ (normalizeWebpackStats mockWebpackStats).modules, b.id = x)) :=
  ⟨by decide,
   dependency_graph_invariants mockWebpackStats (by decide) cssModuleRec (by decide)⟩

/-! ## Claim C8: child ordering -/

/-- Structural induction over the hierarchy tree via child membership. -/
theorem TNode.indMem {motive : TNode → Prop}
    (h : ∀ n p ty v d cs, (∀ c ∈ cs, motive c) → motive (.mk n p ty v d cs)) :
    ∀ t, motive t
  | .mk n p ty v d cs =>
    h n p ty v d cs (fun c _hmemc => TNode.indMem h c)
termination_by t => sizeOf t
decreasing_by
  have := List.sizeOf_lt_of_mem _hmemc
  simp only [TNode.mk.sizeOf_spec]
  omega

theorem allNodes_mk (P : TNode → Bool) (n p ty : String) (v : Nat)
    (d : Option NormalizedModule) (cs : List TNode) :
    allNodes P (.mk n p ty v d cs) = (P (.mk n p ty v d cs) && allForest P cs) := by
  rw [allNodes]

theorem allForest_nil (P : TNode → Bool) : allForest P [] = true := by
  rw [allForest]

theorem allForest_cons (P : TNode → Bool) (c : TNode) (rest : List TNode) :
    allForest P (c :: rest) = (allNodes P c && allForest P rest) := by
  rw [allForest]

theorem allForest_eq_all (P : TNode → Bool) (l : List TNode) :
    allForest P l = l.all (allNodes P) := by
  induction l with
  | nil => rw [allForest_nil]; rfl
  | cons c rest ih => rw [allForest_cons, List.all_cons, ih]

theorem insertDesc_chain_aux (x : TNode) :
    ∀ (ys : List TNode) (y : TNode),
    x.value ≤ y.value →
    chainHolds (fun a b => b.value ≤ a.value) (y :: ys) = true →
    chainHolds (fun a b => b.value ≤ a.value) (y :: insertDesc x ys) = true := by
  intro ys
  induction ys with
  | nil =>
    intro y hxy _
    simp [insertDesc, chainHolds, hxy]
  | cons z zs ih =>
    intro y hxy hl
    rw [chainHolds] at hl
    rw [Bool.and_eq_true] at hl
    obtain ⟨hyz, hzzs⟩ := hl
    unfold insertDesc
    by_cases hxz : x.value ≤ z.value
    · rw [if_pos hxz, chainHolds, Bool.and_eq_true]
      exact ⟨hyz, ih z hxz hzzs⟩
    · rw [if_neg hxz, chainHolds, Bool.and_eq_true]
      refine ⟨by simpa using hxy, ?_⟩
      rw [chainHolds, Bool.and_eq_true]
      refine ⟨by simp; omega, hzzs⟩

theorem insertDesc_chain (x : TNode) (l : List TNode)
    (hl : chainHolds (fun a b => b.value ≤ a.value) l = true) :
    chainHolds (fun a b => b.value ≤ a.value) (insertDesc x l) = true := by
  cases l with
  | nil => rfl
  | cons y ys =>
    by_cases hxy : x.value ≤ y.value
    · unfold insertDesc
      rw [if_pos hxy]
      exact insertDesc_chain_aux x ys y hxy hl
    · unfold insertDesc
      rw [if_neg hxy, chainHolds, Bool.and_eq_true]
      exact ⟨by simp; omega, hl⟩

theorem sortDesc_chain (l : List TNode) :
    chainHolds (fun a b => b.value ≤ a.value) (sortDesc l) = true := by
  unfold sortDesc
  exact foldl_preserve (fun acc x => insertDesc x acc)
    (fun acc => chainHolds (fun a b => b.value ≤ a.value) acc = true)
    (fun acc x hacc => insertDesc_chain x acc hacc) l [] rfl

theorem mem_insertDesc {x a : TNode} :
    ∀ {l : List TNode}, a ∈ insertDesc x l → a = x ∨ a ∈ l := by
  intro l
  induction l with
  | nil =>
    intro h
    simp [insertDesc] at h
    exact Or.inl h
  | cons y ys ih =>
    intro h
    unfold insertDesc at h
    by_cases hxy : x.value ≤ y.value
    · rw [if_pos hxy] at h
      rcases List.mem_cons.mp h with h | h
      · exact Or.inr (by simp [h])
      · rcases ih h with h | h
        · exact Or.inl h
        · exact Or.inr (by simp [h])
    · rw [if_neg hxy] at h
      rcases List.mem_cons.mp h with h | h
      · exact Or.inl h
      · exact Or.inr h

theorem mem_sortDesc {a : TNode} {l : List TNode}
    (h : a ∈ sortDesc l) : a ∈ l := by
  have aux : ∀ (l' : List TNode) (acc : List TNode),
      a ∈ l'.foldl (fun acc x => insertDesc x acc) acc → a ∈ acc ∨ a ∈ l' := by
    intro l'
    induction l' with
    | nil => intro acc h'; exact Or.inl (by simpa using h')
    | cons x xs ih =>
      intro acc h'
      rw [List.foldl_cons] at h'
      rcases ih (insertDesc x acc) h' with h'' | h''
      · rcases mem_insertDesc h'' with h3 | h3
        · exact Or.inr (by simp [h3])
        · exact Or.inl h3
      · exact Or.inr (by simp [h''])
  unfold sortDesc at h
  rcases aux l [] h with h' | h'
  · simp at h'
  · exact h'

theorem sortTree_value (t : TNode) : (sortTree t).value = t.value := by
  cases t
  rw [sortTree]
  rfl

theorem sortTree_data (t : TNode) : (sortTree t).data = t.data := by
  cases t
  rw [sortTree]
  rfl

theorem mem_sortForest {a : TNode} :
    ∀ {cs : List TNode}, a ∈ sortForest cs ↔ ∃ c ∈ cs, a = sortTree c := by
  intro cs
  induction cs with
  | nil => rw [sortForest]; simp
  | cons c rest ih =>
    rw [sortForest]
    simp only [List.mem_cons, ih]
    constructor
    · rintro (h | ⟨c', hc', rfl⟩)
      · exact ⟨c, Or.inl rfl, h⟩
      · exact ⟨c', Or.inr hc', rfl⟩
    · rintro ⟨c', hc' | hc', rfl⟩
      · exact Or.inl (by rw [hc'])
      · exact Or.inr ⟨c', hc', rfl⟩

/-- Every tree that went through the sort pass has its children in
non-increasing value order, at every node. -/
theorem sortTree_sorted : ∀ t, allNodes sortedByValueP (sortTree t) = true := by
  intro t
  induction t using TNode.indMem with
  | h n p ty v d cs ih =>
    rw [sortTree, allNodes_mk, Bool.and_eq_true]
    constructor
    · unfold sortedByValueP
      exact sortDesc_chain (sortForest cs)
    · rw [allForest_eq_all, List.all_eq_true]
      intro x hx
      rcases mem_sortForest.mp (mem_sortDesc hx) with ⟨c, hc, rfl⟩
      exact ih c hc

/-- Claim C8 amended: in every hierarchy tree the children of every node
are sorted by non-increasing value (the comparator looks only at value;
the stable sort keeps encounter order on ties). -/
theorem hierarchy_children_sorted (modules : List NormalizedModule) :
    allNodes sortedByValueP (buildHierarchy modules) = true := by
  unfold buildHierarchy
  exact sortTree_sorted _

/-- A module with the given path and a fixed size, for tie-break
counterexamples. -/
def tieModule (p : String) : NormalizedModule :=
  { id := p, name := p, path := p
    size := { raw := 5, gzip := some 1 }
    type := tyJs, dependencies := [], dependents := [] }

/-- Counterexample to claim C8 as stated: with three equal-value
modules inserted in the order b, a, c, the root children keep encounter
order (b, a, c), which is sorted neither by ascending nor by descending
name — the d3 comparator looks only at values and the stable sort keeps
insertion order on ties. -/
theorem tie_not_broken_by_name :
    allNodes sortedTieNameAscP
      (buildHierarchy [tieModule "b", tieModule "a", tieModule "c"]) = false ∧
    allNodes sortedTieNameDescP
      (buildHierarchy [tieModule "b", tieModule "a", tieModule "c"]) = false :=
  ⟨by decide, by decide⟩

/-! ## Claim C1: the bottom-up aggregation invariant -/

/-- Proper segment-stem check: the first segment list is a proper
initial segment of the second. -/
def stemStrictB : List String → List String → Bool
  | [], [] => false
  | [], _ :: _ => true
  | _ :: _, [] => false
  | a :: as, b :: bs => a == b && stemStrictB as bs

theorem stemStrictB_iff : ∀ (s1 s2 : List String),
    stemStrictB s1 s2 = true ↔ ∃ k, k ≠ [] ∧ s2 = s1 ++ k := by
  intro s1
  induction s1 with
  | nil =>
    intro s2
    cases s2 with
    | nil =>
      constructor
      · intro h
        simp [stemStrictB] at h
      · rintro ⟨k, hk, hkeq⟩
        exact absurd hkeq.symm hk
    | cons b bs =>
      constructor
      · intro _
        exact ⟨b :: bs, by simp, rfl⟩
      · intro _
        rfl
  | cons a as ih =>
    intro s2
    cases s2 with
    | nil =>
      constructor
      · intro h
        simp [stemStrictB] at h
      · rintro ⟨k, hk, hkeq⟩
        exact absurd hkeq (by simp)
    | cons b bs =>
      rw [stemStrictB, Bool.and_eq_true, beq_iff_eq, ih bs]
      constructor
      · rintro ⟨rfl, k, hk, rfl⟩
        exact ⟨k, hk, rfl⟩
      · rintro ⟨k, hk, hkeq⟩
        rw [List.cons_append] at hkeq
        injection hkeq with h1 h2
        exact ⟨h1.symm, k, hk, h2⟩

/-- Generic preservation of an invariant through a left fold, where the
step property is only needed for elements of the list. -/
theorem foldl_preserve_mem {α β : Type} (step : α → β → α) (Inv : α → Prop) :
    ∀ (l : List β), (∀ a b, b ∈ l → Inv a → Inv (step a b)) →
      ∀ a, Inv a → Inv (l.foldl step a) := by
  intro l
  induction l with
  | nil => intro _ a ha; simpa using ha
  | cons b bs ih =>
    intro h a ha
    rw [List.foldl_cons]
    exact ih (fun a' b' hb' ha' => h a' b' (by simp [hb']) ha')
      (step a b) (h a b (by simp) ha)

theorem mem_replaceOrAppend {p : String} {x : TNode} :
    ∀ {cs : List TNode} {y : TNode},
      y ∈ replaceOrAppend p x cs → y = x ∨ y ∈ cs := by
  intro cs
  induction cs with
  | nil =>
    intro y h
    simp [replaceOrAppend] at h
    exact Or.inl h
  | cons c rest ih =>
    intro y h
    unfold replaceOrAppend at h
    by_cases hc : c.name = p
    · rw [if_pos hc] at h
      rcases List.mem_cons.mp h with h | h
      · exact Or.inl h
      · exact Or.inr (List.mem_cons.mpr (Or.inr h))
    · rw [if_neg hc] at h
      rcases List.mem_cons.mp h with h | h
      · exact Or.inr (by simp [h])
      · rcases ih h with h | h
        · exact Or.inl h
        · exact Or.inr (by simp [h])

theorem insertGo_name (m : NormalizedModule) (pre parts : List String)
    (t : TNode) : (insertGo m pre parts t).name = t.name := by
  cases parts <;> rfl

theorem sumTree_mk (n p ty : String) (v : Nat) (d : Option NormalizedModule)
    (cs : List TNode) :
    sumTree (.mk n p ty v d cs) =
      .mk n p ty (v + valuesSum (sumForest cs)) d (sumForest cs) := by
  rw [sumTree]

theorem sumForest_nil : sumForest [] = [] := by rw [sumForest]

theorem sumForest_cons (c : TNode) (rest : List TNode) :
    sumForest (c :: rest) = sumTree c :: sumForest rest := by
  rw [sumForest]

theorem mem_sumForest {a : TNode} :
    ∀ {cs : List TNode}, a ∈ sumForest cs ↔ ∃ c ∈ cs, a = sumTree c := by
  intro cs
  induction cs with
  | nil => rw [sumForest_nil]; simp
  | cons c rest ih =>
    rw [sumForest_cons]
    simp only [List.mem_cons, ih]
    constructor
    · rintro (h | ⟨c', hc', rfl⟩)
      · exact ⟨c, Or.inl rfl, h⟩
      · exact ⟨c', Or.inr hc', rfl⟩
    · rintro ⟨c', hc' | hc', rfl⟩
      · exact Or.inl (by rw [hc'])
      · exact Or.inr ⟨c', hc', rfl⟩

theorem valuesSum_nil : valuesSum [] = 0 := rfl

theorem valuesSum_cons (c : TNode) (l : List TNode) :
    valuesSum (c :: l) = c.value + valuesSum l := by
  unfold valuesSum
  rw [List.map_cons, List.sum_cons]

theorem valuesSum_insertDesc (x : TNode) :
    ∀ (l : List TNode), valuesSum (insertDesc x l) = x.value + valuesSum l := by
  intro l
  induction l with
  | nil => rw [insertDesc, valuesSum_cons]
  | cons y ys ih =>
    unfold insertDesc
    by_cases hxy : x.value ≤ y.value
    · rw [if_pos hxy, valuesSum_cons, ih, valuesSum_cons]
      omega
    · rw [if_neg hxy, valuesSum_cons, valuesSum_cons]

theorem valuesSum_sortDesc (l : List TNode) :
    valuesSum (sortDesc l) = valuesSum l := by
  have aux : ∀ (l' acc : List TNode),
      valuesSum (l'.foldl (fun acc x => insertDesc x acc) acc) =
        valuesSum acc + valuesSum l' := by
    intro l'
    induction l' with
    | nil => intro acc; rw [List.foldl_nil, valuesSum_nil]; omega
    | cons x xs ih =>
      intro acc
      rw [List.foldl_cons, ih, valuesSum_insertDesc, valuesSum_cons]
      omega
  unfold sortDesc
  rw [aux, valuesSum_nil]
  omega

theorem valuesSum_sortForest : ∀ (cs : List TNode),
    valuesSum (sortForest cs) = valuesSum cs := by
  intro cs
  induction cs with
  | nil => rw [sortForest]
  | cons c rest ih =>
    rw [sortForest, valuesSum_cons, valuesSum_cons, sortTree_value, ih]

theorem length_insertDesc (x : TNode) :
    ∀ (l : List TNode), (insertDesc x l).length = l.length + 1 := by
  intro l
  induction l with
  | nil => rfl
  | cons y ys ih =>
    unfold insertDesc
    by_cases hxy : x.value ≤ y.value
    · rw [if_pos hxy, List.length_cons, ih, List.length_cons]
    · rw [if_neg hxy]
      rfl

theorem length_sortDesc (l : List TNode) :
    (sortDesc l).length = l.length := by
  have aux : ∀ (l' acc : List TNode),
      (l'.foldl (fun acc x => insertDesc x acc) acc).length =
        acc.length + l'.length := by
    intro l'
    induction l' with
    | nil => intro acc; rw [List.foldl_nil, List.length_nil]; omega
    | cons x xs ih =>
      intro acc
      rw [List.foldl_cons, ih, length_insertDesc, List.length_cons]
      omega
  unfold sortDesc
  rw [aux]
  simp

theorem length_sortForest : ∀ (cs : List TNode),
    (sortForest cs).length = cs.length := by
  intro cs
  induction cs with
  | nil => rw [sortForest]
  | cons c rest ih =>
    rw [sortForest, List.length_cons, List.length_cons, ih]

/-- Positional invariant of the raw (pre-sum) tree relative to the set
`PS` of inserted segment paths: a node at position `σ` carries a value
coupled to its origin module (or zero), its position is an inserted
path whenever it has an origin, and every child position is an initial
segment of some inserted path. -/
inductive RawInv (PS : List (List String)) : List String → TNode → Prop where
  | mk (σ : List String) (n p ty : String) (v : Nat)
      (d : Option NormalizedModule) (cs : List TNode)
      (hnone : d = none → v = 0)
      (hsome : ∀ m, d = some m → v = m.size.raw)
      (hin : d.isSome = true → σ ∈ PS)
      (hchild : ∀ c ∈ cs, ∃ s ∈ PS, ∃ k, s = (σ ++ [c.name]) ++ k)
      (hrec : ∀ c ∈ cs, RawInv PS (σ ++ [c.name]) c) :
      RawInv PS σ (TNode.mk n p ty v d cs)

theorem insertGo_nil (m : NormalizedModule) (pre : List String) (t : TNode) :
    insertGo m pre [] t =
      TNode.mk t.name t.path t.ty m.size.raw (some m) t.children := rfl

theorem insertGo_cons (m : NormalizedModule) (pre : List String)
    (p : String) (ps : List String) (t : TNode) :
    insertGo m pre (p :: ps) t =
      TNode.mk t.name t.path t.ty t.value t.data
        (replaceOrAppend p
          (insertGo m (pre ++ [p]) ps
            (match t.children.find? (fun c => c.name = p) with
             | some c => c
             | none => TNode.mk p (joinPath (pre ++ [p]))
                 (if ps.isEmpty then m.type else tyFolder) 0 none []))
          t.children) := rfl

theorem target_name (m : NormalizedModule) (p : String) (ps : List String)
    (pre : List String) (cs : List TNode) :
    (match cs.find? (fun c : TNode => c.name = p) with
     | some c => c
     | none => TNode.mk p (joinPath (pre ++ [p]))
         (if ps.isEmpty then m.type else tyFolder) 0 none []).name = p := by
  cases hfind : cs.find? (fun c : TNode => c.name = p) with
  | some c =>
    have := List.find?_some hfind
    exact of_decide_eq_true this
  | none => rfl

theorem target_inv (m : NormalizedModule) (PS : List (List String))
    (p : String) (ps : List String) (σ pre : List String) (cs : List TNode)
    (hrec : ∀ c ∈ cs, RawInv PS (σ ++ [c.name]) c) :
    RawInv PS (σ ++ [p])
      (match cs.find? (fun c : TNode => c.name = p) with
       | some c => c
       | none => TNode.mk p (joinPath (pre ++ [p]))
           (if ps.isEmpty then m.type else tyFolder) 0 none []) := by
  cases hfind : cs.find? (fun c : TNode => c.name = p) with
  | some c =>
    have hc : c ∈ cs := List.mem_of_find?_eq_some hfind
    have hcname : c.name = p := by
      have := List.find?_some hfind
      exact of_decide_eq_true this
    have := hrec c hc
    rw [hcname] at this
    exact this
  | none =>
    refine RawInv.mk _ _ _ _ _ _ _ ?_ ?_ ?_ ?_ ?_
    · intro _; rfl
    · intro m' h; exact absurd h (by simp)
    · intro h; simp at h
    · intro c hc; simp at hc
    · intro c hc; simp at hc

/-- The trie insertion preserves the positional invariant, provided the
inserted path extends the insertion position into a member of `PS`. -/
theorem insertGo_inv (m : NormalizedModule) (PS : List (List String)) :
    ∀ (parts : List String) (σ pre : List String) (t : TNode),
      RawInv PS σ t → (σ ++ parts) ∈ PS →
      RawInv PS σ (insertGo m pre parts t) := by
  intro parts
  induction parts with
  | nil =>
    intro σ pre t hinv hmem
    cases hinv with
    | mk σ n nm ty v d cs hnone hsome hin hchild hrec =>
      rw [insertGo_nil]
      refine RawInv.mk σ _ _ _ m.size.raw (some m) cs ?_ ?_ ?_ hchild hrec
      · intro h; exact absurd h (by simp)
      · intro m' h
        injection h with h
        rw [h]
      · intro _
        simpa using hmem
  | cons p ps ih =>
    intro σ pre t hinv hmem
    cases hinv with
    | mk σ n nm ty v d cs hnone hsome hin hchild hrec =>
      rw [insertGo_cons]
      refine RawInv.mk σ _ _ _ v d _ hnone hsome hin ?_ ?_
      · intro c' hc'
        rcases mem_replaceOrAppend hc' with rfl | hc'
        · rw [insertGo_name, target_name]
          refine ⟨σ ++ (p :: ps), hmem, ps, ?_⟩
          rw [List.append_assoc]
          rfl
        · exact hchild c' hc'
      · intro c' hc'
        rcases mem_replaceOrAppend hc' with rfl | hc'
        · rw [insertGo_name, target_name]
          refine ih (σ ++ [p]) (pre ++ [p]) _
            (target_inv m PS p ps σ pre cs hrec) ?_
          rw [List.append_assoc]
          simpa using hmem
        · exact hrec c' hc'

theorem rootData_inv (PS : List (List String)) : RawInv PS [] rootData := by
  unfold rootData
  refine RawInv.mk _ _ _ _ _ _ _ ?_ ?_ ?_ ?_ ?_
  · intro _; rfl
  · intro m h; exact absurd h (by simp)
  · intro h; simp at h
  · intro c hc; simp at hc
  · intro c hc; simp at hc

theorem buildRaw_inv (modules : List NormalizedModule)
    (PS : List (List String)) (hPS : ∀ m ∈ modules, jsSplit m.path ∈ PS) :
    RawInv PS []
      (modules.foldl (fun t m => insertGo m [] (jsSplit m.path) t) rootData) := by
  refine foldl_preserve_mem _ (RawInv PS []) modules ?_ rootData (rootData_inv PS)
  intro t m hm hinv
  exact insertGo_inv m PS (jsSplit m.path) [] [] t hinv (by simpa using hPS m hm)

/-- When the inserted paths form an antichain under the proper-stem
order, the summed tree satisfies the per-node value invariant
everywhere: internal nodes carry zero own value, so the d3 sum makes
them exactly the sum of their children, and leaves keep their module's
raw size. -/
theorem sum_inv (PS : List (List String))
    (hAnti : ∀ s1 ∈ PS, ∀ s2 ∈ PS, ¬ ∃ k, k ≠ [] ∧ s2 = s1 ++ k) :
    ∀ (σ : List String) (t : TNode), RawInv PS σ t →
      allNodes c1P (sumTree t) = true := by
  intro σ t hinv
  induction hinv with
  | mk σ n p ty v d cs hnone hsome hin hchild hrec ih =>
    rw [sumTree_mk, allNodes_mk, Bool.and_eq_true]
    constructor
    · cases cs with
      | nil =>
        rw [sumForest_nil]
        cases d with
        | none => rfl
        | some m =>
          have hv : v = m.size.raw := hsome m rfl
          show ((true : Bool) &&
            (v + valuesSum [] == m.size.raw)) = true
          rw [valuesSum_nil, hv]
          simp
      | cons c cs' =>
        have hd : d = none := by
          cases d with
          | none => rfl
          | some mm =>
            exfalso
            have hσ : σ ∈ PS := hin rfl
            obtain ⟨s, hs, k, hk⟩ := hchild c (by simp)
            refine hAnti σ hσ s hs ⟨[c.name] ++ k, by simp, ?_⟩
            rw [hk, List.append_assoc]
        have hv : v = 0 := hnone hd
        subst hd
        subst hv
        rw [sumForest_cons]
        show ((0 + valuesSum (sumTree c :: sumForest cs') ==
            valuesSum (sumTree c :: sumForest cs')) && true) = true
        simp
    · rw [allForest_eq_all, List.all_eq_true]
      intro x hx
      rcases mem_sumForest.mp hx with ⟨c', hc', rfl⟩
      exact ih c' hc'

/-- The sort pass only permutes children lists, so the value invariant
survives it. -/
theorem sortTree_pres_c1 : ∀ t, allNodes c1P t = true →
    allNodes c1P (sortTree t) = true := by
  intro t
  induction t using TNode.indMem with
  | h n p ty v d cs ih =>
    intro h0
    rw [allNodes_mk, Bool.and_eq_true] at h0
    obtain ⟨hroot, hkids⟩ := h0
    rw [sortTree, allNodes_mk, Bool.and_eq_true]
    constructor
    · cases cs with
      | nil =>
        show c1P (.mk n p ty v d (sortDesc (sortForest []))) = true
        rw [sortForest]
        exact hroot
      | cons c rest =>
        have hsum : valuesSum (sortDesc (sortForest (c :: rest))) =
            valuesSum (c :: rest) := by
          rw [valuesSum_sortDesc, valuesSum_sortForest]
        have hlen : (sortDesc (sortForest (c :: rest))).length =
            (c :: rest).length := by
          rw [length_sortDesc, length_sortForest]
        obtain ⟨x, xs, hX⟩ :
            ∃ x xs, sortDesc (sortForest (c :: rest)) = x :: xs := by
          cases hY : sortDesc (sortForest (c :: rest)) with
          | nil => rw [hY] at hlen; simp at hlen
          | cons x xs => exact ⟨x, xs, rfl⟩
        rw [hX] at hsum
        show c1P (.mk n p ty v d (sortDesc (sortForest (c :: rest)))) = true
        rw [hX]
        cases d with
        | none =>
          have hroot' : ((v == valuesSum (c :: rest)) && true) = true := hroot
          show ((v == valuesSum (x :: xs)) && true) = true
          rw [hsum]
          exact hroot'
        | some mm =>
          have hroot' : ((v == valuesSum (c :: rest)) && true) = true := hroot
          show ((v == valuesSum (x :: xs)) && true) = true
          rw [hsum]
          exact hroot'
    · rw [allForest_eq_all, List.all_eq_true]
      rw [allForest_eq_all, List.all_eq_true] at hkids
      intro x hx
      rcases mem_sortForest.mp (mem_sortDesc hx) with ⟨c', hc', rfl⟩
      exact ih c' hc' (hkids c' hc')

/-- Claim C1 amended: for every module list in which no module's
slash-segmented path is a proper initial segment of another module's
path, every internal node of the hierarchy has value equal to the sum
of its children's values, and every leaf carrying an origin module has
value equal to that module's `size.raw`. -/
theorem hierarchy_value_invariant (modules : List NormalizedModule)
    (h : ∀ m1 ∈ modules, ∀ m2 ∈ modules,
      stemStrictB (jsSplit m1.path) (jsSplit m2.path) = false) :
    allNodes c1P (buildHierarchy modules) = true := by
  unfold buildHierarchy
  have hPS : ∀ m ∈ modules,
      jsSplit m.path ∈ modules.map (fun m => jsSplit m.path) :=
    fun m hm => List.mem_map.mpr ⟨m, hm, rfl⟩
  have hAnti : ∀ s1 ∈ modules.map (fun m => jsSplit m.path),
      ∀ s2 ∈ modules.map (fun m => jsSplit m.path),
      ¬ ∃ k, k ≠ [] ∧ s2 = s1 ++ k := by
    intro s1 hs1 s2 hs2 hex
    rcases List.mem_map.mp hs1 with ⟨m1, hm1, rfl⟩
    rcases List.mem_map.mp hs2 with ⟨m2, hm2, rfl⟩
    have hfalse := h m1 hm1 m2 hm2
    have htrue := (stemStrictB_iff _ _).mpr hex
    rw [hfalse] at htrue
    exact Bool.false_ne_true htrue
  exact sortTree_pres_c1 _
    (sum_inv (modules.map (fun m => jsSplit m.path)) hAnti []
      _ (buildRaw_inv modules _ hPS))

/-- A module with the given path and raw size. -/
def pathModule (p : String) (sz : Nat) : NormalizedModule :=
  { id := p, name := p, path := p
    size := { raw := sz, gzip := some (approximateGzipSize sz) }
    type := getTypeFromName p, dependencies := [], dependents := [] }

/-- Counterexample to claim C1 as stated (over all module lists): when
one module's path ("a") is a proper segment-stem of another's ("a/b"),
the node "a" is both a module target (own value 5) and a folder, and
the d3 sum gives it value 12 while its children sum to 7. -/
theorem nested_path_breaks_sum :
    allNodes c1P
      (buildHierarchy [pathModule "a" 5, pathModule "a/b" 7]) = false := by
  decide

/-- Witness for the amended C1 at a concrete prefix-free module list. -/
theorem hierarchy_value_invariant_witness :
    (∀ m1 ∈ [pathModule "x/a" 5, pathModule "x/b" 7],
      ∀ m2 ∈ [pathModule "x/a" 5, pathModule "x/b" 7],
        stemStrictB (jsSplit m1.path) (jsSplit m2.path) = false) ∧
    allNodes c1P
      (buildHierarchy [pathModule "x/a" 5, pathModule "x/b" 7]) = true :=
  ⟨by decide, hierarchy_value_invariant _ (by decide)⟩
